import Mathlib

/-!
Verification of the board engine of the `mines` minefield game
(single C source file `mines.c`).

The development embeds the global game state (`struct tile`, the `g_*`
globals) as the structures `Tile` and `Game`, and the operations
`init_board`, `make_space`, `reveal`, `reveal_all`, `tile_char`,
`parse_location`, `run_command` and `calc_score` as Lean functions.
The pseudo-random values consumed by `rand()` are passed in explicitly
(`swaps` for the shuffle in `init_board`, `nth` for `make_space`), and
the confirmation read in the quit path is passed as a boolean.

The `reveal` flood fill, which in C walks the board laying a breadcrumb
trail in the `dx`/`dy` bit fields of each tile, is embedded as a
fuel-indexed loop `revealLoop` whose single step `revealStep` mirrors one
`check_tile` iteration of the C loop; the fuel `2*width*height + 1` is
proved sufficient below.
-/

namespace Mines

/-- `struct tile`: one cell of the board.  The C bit fields hold
`mine`, `revealed`, `flagged` (1 bit each), the breadcrumb offsets
`dx`, `dy` (2-bit signed, values used are -1..1), the scan progress
`angle` (4-bit, values used are 0..8) and the cached neighbouring mine
count `around` (4-bit, values used are 0..8). -/
structure Tile where
  mine : Bool
  revealed : Bool
  flagged : Bool
  dx : Int
  dy : Int
  angle : Nat
  around : Nat
deriving DecidableEq

/-- A zero-initialized tile, as in the zero-initialized global `g_board`. -/
def defaultTile : Tile := ⟨false, false, false, 0, 0, 0, 0⟩

/-- The global game state: `g_width`, `g_height`, `g_n_mines`,
`g_n_flags`, `g_n_found`, `g_board_initialized` and `g_board`.
The tile grid is a total function; only in-range cells are ever used. -/
structure Game where
  width : Nat
  height : Nat
  nMines : Nat
  nFlags : Int
  nFound : Int
  initialized : Bool
  tiles : Int → Int → Tile

/-- The freshly started program state for a given configuration:
all counters zero, board uninitialized, all tiles zero. -/
def mkGame (w h n : Nat) : Game :=
  ⟨w, h, n, 0, 0, false, fun _ _ => defaultTile⟩

/-- Update the tile at one position. -/
def updTile (g : Game) (x y : Int) (f : Tile → Tile) : Game :=
  { g with tiles := fun a b => if a = x ∧ b = y then f (g.tiles a b) else g.tiles a b }

/-- `(x, y)` is inside the board, as checked all over the C source:
`x >= 0 && x < g_width && y >= 0 && y < g_height`. -/
def inRangeP (g : Game) (x y : Int) : Prop :=
  0 ≤ x ∧ x < (g.width : Int) ∧ 0 ≤ y ∧ y < (g.height : Int)

instance (g : Game) (x y : Int) : Decidable (inRangeP g x y) := by
  unfold inRangeP; infer_instance

/-- The `sines` table: square sines, extended by a quarter cycle for
cosines. -/
def sines : List Int := [0, 1, 1, 1, 0, -1, -1, -1, 0, 1]

/-- `sine(angle)`, i.e. `sines[angle]`. -/
def sine (a : Nat) : Int := sines.getD a 0

/-- `cosine(angle)`, i.e. `sines[angle + 2]`. -/
def cosine (a : Nat) : Int := sines.getD (a + 2) 0

/-- Mark the tile at `(x, y)` revealed (`t->revealed = 1`). -/
def setRevealed (g : Game) (x y : Int) : Game :=
  updTile g x y fun t => { t with revealed := true }

/-- The state of the `reveal` loop: the board and the current `(x, y)`. -/
structure LoopState where
  g : Game
  x : Int
  y : Int

/-- One angle qualifies for the flood fill when the neighbour in that
direction is in range and not yet revealed. -/
def angleOK (g : Game) (x y : Int) (a : Nat) : Bool :=
  let ax := x + cosine a
  let ay := y + sine a
  decide (inRangeP g ax ay) && !(g.tiles ax ay).revealed

/-- The scan `for (; t->angle < 8; ++t->angle)`: the first angle from
`a0` up to 7 whose neighbour is in range and unrevealed. -/
def scanFrom (g : Game) (x y : Int) (a0 : Nat) : Option Nat :=
  ((List.range 8).drop a0).find? (angleOK g x y)

/-- The result of one `check_tile` iteration: either the loop continues
at a new position, or it breaks with the final board. -/
inductive StepRes where
  | cont (s : LoopState)
  | done (g : Game)

/-- One `check_tile` iteration of the `reveal` loop: reveal the current
tile; if its `around` count is zero, scan the angles from the stored
`t->angle` for an unrevealed in-range neighbour and descend into the
first one found (laying the breadcrumb `dx`, `dy` in the neighbour and
keeping the scan progress in `t->angle`); otherwise reset `t->angle`
and either break (at the breadcrumb root) or backtrack. -/
def revealStep (s : LoopState) : StepRes :=
  let g1 := setRevealed s.g s.x s.y
  let t := g1.tiles s.x s.y
  match (if t.around = 0 then scanFrom g1 s.x s.y t.angle else none) with
  | some a =>
    let ax := s.x + cosine a
    let ay := s.y + sine a
    let g2 := updTile g1 s.x s.y fun u => { u with angle := a }
    let g3 := updTile g2 ax ay fun u => { u with dx := s.x - ax, dy := s.y - ay }
    .cont ⟨g3, ax, ay⟩
  | none =>
    let g2 := updTile g1 s.x s.y fun u => { u with angle := 0 }
    let t2 := g2.tiles s.x s.y
    if t2.dx = 0 ∧ t2.dy = 0 then .done g2
    else .cont ⟨g2, s.x + t2.dx, s.y + t2.dy⟩

/-- The `for (;;)` loop of `reveal`, run on bounded fuel.  `none` means
the fuel ran out (shown impossible below for sufficient fuel). -/
def revealLoop : Nat → LoopState → Option Game
  | 0, _ => none
  | n + 1, s =>
    match revealStep s with
    | .done g => some g
    | .cont s' => revealLoop n s'

/-- `reveal(x, y)`: returns `some (false, g)` when a mine is hit (the C
function returns 0 leaving the board untouched), `some (true, g')` on a
successful reveal (C returns 1), and `none` only on fuel exhaustion. -/
def reveal (g : Game) (x y : Int) : Option (Bool × Game) :=
  if (g.tiles x y).mine then some (false, g)
  else if (g.tiles x y).revealed then some (true, g)
  else
    let g0 := updTile g x y fun t => { t with dx := 0, dy := 0 }
    match revealLoop (2 * g.width * g.height + 1) ⟨g0, x, y⟩ with
    | some g' => some (true, g')
    | none => none

/-- `reveal_all()`: mark every in-range tile revealed. -/
def reveal_all (g : Game) : Game :=
  { g with tiles := fun x y =>
      if inRangeP g x y then { g.tiles x y with revealed := true } else g.tiles x y }

/-- The cell filled by the `i`-th step of the first `init_board` loop:
`x` runs fastest and wraps at `g_width`. -/
def fillPos (w : Nat) (i : Nat) : Int × Int := (((i % w : Nat) : Int), ((i / w : Nat) : Int))

/-- The first `init_board` loop: give the first `g_n_mines` cells in
x-fastest order a mine. -/
def placeMines (g : Game) : Game :=
  (List.range g.nMines).foldl
    (fun g' i => updTile g' (fillPos g.width i).1 (fillPos g.width i).2
      fun t => { t with mine := true }) g

/-- Exchange the whole tiles at positions `p` and `q`
(`temp = g_board[x][y]; g_board[x][y] = *there; *there = temp;`). -/
def swapTiles (g : Game) (p q : Int × Int) : Game :=
  let tp := g.tiles p.1 p.2
  let tq := g.tiles q.1 q.2
  let g' := updTile g p.1 p.2 fun _ => tq
  updTile g' q.1 q.2 fun _ => tp

/-- The second `init_board` loop: `g_n_mines` pairwise swaps between the
`i`-th cell and a random cell `(rand() % g_width, rand() % g_height)`;
the raw `rand()` pair for step `i` is `swaps i`. -/
def swapPhase (swaps : Nat → Nat × Nat) (g : Game) : Game :=
  (List.range g.nMines).foldl
    (fun g' i =>
      swapTiles g' (fillPos g.width i)
        ((((swaps i).1 % g.width : Nat) : Int), (((swaps i).2 % g.height : Nat) : Int))) g

/-- The number of mines among the up-to-8 neighbours of `(x, y)`, as
counted by the third `init_board` loop (and the ground truth the cached
`around` field is supposed to match). -/
def adjMines (g : Game) (x y : Int) : Nat :=
  ((List.range 8).filter fun a =>
    let ax := x + cosine a
    let ay := y + sine a
    decide (inRangeP g ax ay) && (g.tiles ax ay).mine).length

/-- The third `init_board` loop: accumulate the neighbouring mine count
of every in-range tile into its `around` field.  The mine bits are not
written during this pass, so the sequential C loop equals this
simultaneous update. -/
def computeAround (g : Game) : Game :=
  { g with tiles := fun x y =>
      if inRangeP g x y then { g.tiles x y with around := (g.tiles x y).around + adjMines g x y }
      else g.tiles x y }

/-- `init_board()`: if not yet initialized, set the flag, give the first
`g_n_mines` cells a mine, shuffle with `g_n_mines` random swaps and
cache the neighbouring mine counts. -/
def init_board (swaps : Nat → Nat × Nat) (g : Game) : Game :=
  if g.initialized then g
  else computeAround (swapPhase swaps (placeMines { g with initialized := true }))

/-- The cells in the scan order of `make_space`: `ey` outer, `ex` inner. -/
def scanCells (g : Game) : List (Int × Int) :=
  (List.range g.height).flatMap fun iy =>
    (List.range g.width).map fun ix => (((ix : Nat) : Int), ((iy : Nat) : Int))

/-- The `make_space` scan: walk the cells, decrementing `nth` at each
unmined one, and return the first unmined cell reached with `nth = 0`
(C: `if (!g_board[ex][ey].mine && nth-- <= 0)`). -/
def findSpace (g : Game) : List (Int × Int) → Nat → Option (Int × Int)
  | [], _ => none
  | c :: rest, nth =>
    if (g.tiles c.1 c.2).mine then findSpace g rest nth
    else if nth = 0 then some c
    else findSpace g rest (nth - 1)

/-- `make_space(x, y)`: if `(x, y)` holds a mine and the board is not
fully mined, move that mine to the `nth`-th unmined cell in scan order,
where `nth = rand() % (n_tiles - g_n_mines)`; `nthRaw` is the raw
`rand()` value. -/
def make_space (g : Game) (x y : Int) (nthRaw : Nat) : Game :=
  if !(g.tiles x y).mine then g
  else if g.width * g.height ≤ g.nMines then g
  else
    match findSpace g (scanCells g) (nthRaw % (g.width * g.height - g.nMines)) with
    | some c =>
      let g' := updTile g x y fun t => { t with mine := false }
      updTile g' c.1 c.2 fun t => { t with mine := true }
    | none => g

/-- `tile_char(x, y)`: the display character of a tile.  A revealed
tile shows its contents (mine, digit or blank); only then are the flag
and concealed symbols considered. -/
def tile_char (g : Game) (x y : Int) : Char :=
  let t := g.tiles x y
  if t.revealed then
    if t.mine then '*'
    else if 0 < t.around then Char.ofNat (48 + t.around)
    else ' '
  else if t.flagged then 'F'
  else '@'

/-- The C `toupper` on ASCII characters. -/
def toupperC (c : Char) : Char :=
  if 97 ≤ c.toNat ∧ c.toNat ≤ 122 then Char.ofNat (c.toNat - 32) else c

/-- The C `isspace` on ASCII characters. -/
def isspaceC (c : Char) : Bool :=
  c.toNat = 32 || c.toNat = 9 || c.toNat = 10 || c.toNat = 11 || c.toNat = 12 || c.toNat = 13

/-- The C `isdigit` on ASCII characters. -/
def isdigitC (c : Char) : Bool := 48 ≤ c.toNat && c.toNat ≤ 57

/-- The value of the leading run of decimal digits of a string
(0 when there is none), as accumulated by `atoi`. -/
def digitsVal (s : List Char) : Int :=
  (s.takeWhile isdigitC).foldl (fun acc c => acc * 10 + ((c.toNat : Int) - 48)) 0

/-- The C `atoi`: skip leading whitespace, read an optional sign, then
the value of the leading run of digits; trailing characters are
ignored. -/
def atoiC (s : List Char) : Int :=
  match s.dropWhile isspaceC with
  | '+' :: r => digitsVal r
  | '-' :: r => -(digitsVal r)
  | r => digitsVal r

/-- The capital alphabet `"ABCDEFGHIJKLMNOPQRSTUVWXYZ"`. -/
def alphabet : List Char :=
  ['A', 'B', 'C', 'D', 'E', 'F', 'G', 'H', 'I', 'J', 'K', 'L', 'M',
   'N', 'O', 'P', 'Q', 'R', 'S', 'T', 'U', 'V', 'W', 'X', 'Y', 'Z']

/-- `parse_location`: `memchr` the uppercased first character in the
alphabet for the column, bound it by `g_width`, then take
`atoi(input + 1) - 1` as the row, bound by `g_height`.  An empty string
has first character NUL, which is not in the alphabet. -/
def parse_location (g : Game) (input : List Char) : Option (Int × Int) :=
  match input with
  | [] => none
  | c :: rest =>
    match alphabet.findIdx? (fun a => a = toupperC c) with
    | none => none
    | some i =>
      let x : Int := (i : Int)
      if x < (g.width : Int) then
        let y : Int := atoiC rest - 1
        if 0 ≤ y ∧ y < (g.height : Int) then some (x, y) else none
      else none

/-- What `run_command` reports back to the main loop: keep playing
(return 1 after printing the board, help or a message), the specific
`Invalid command` report, one of the game-over outcomes (win, loss,
quit, all return 0), or `stuck`, the marker for flood-fill fuel
exhaustion (proved unreachable). -/
inductive CmdRes where
  | contin
  | invalid
  | won
  | lost
  | help
  | quit
  | stuck
deriving DecidableEq

/-- The body of `case 'f'` after a successful location parse: a no-op
on a revealed tile; otherwise initialize the board if needed, toggle
the flag (maintaining `g_n_flags` and `g_n_found`) and check the win
condition `g_n_found == g_n_mines && g_n_flags == g_n_found`. -/
def flagAction (swaps : Nat → Nat × Nat) (g : Game) (x y : Int) : CmdRes × Game :=
  if (g.tiles x y).revealed then (.contin, g)
  else
    let g1 := init_board swaps g
    let t := g1.tiles x y
    let g2 : Game :=
      if t.flagged then
        { updTile g1 x y (fun u => { u with flagged := false }) with
          nFlags := g1.nFlags - 1
          nFound := g1.nFound - (if t.mine then 1 else 0) }
      else
        { updTile g1 x y (fun u => { u with flagged := true }) with
          nFlags := g1.nFlags + 1
          nFound := g1.nFound + (if t.mine then 1 else 0) }
    if g2.nFound = (g2.nMines : Int) then
      if g2.nFlags = g2.nFound then (.won, reveal_all g2) else (.contin, g2)
    else (.contin, g2)

/-- The `default` case (and `case 'r'` fallthrough) after a successful
location parse: on the first board-affecting command, place the mines
and relocate any mine under the click; refuse to reveal a flagged
tile; otherwise reveal, losing when a mine is hit (the board is then
fully revealed for the final display). -/
def revealAction (swaps : Nat → Nat × Nat) (nthRaw : Nat) (g : Game) (x y : Int) :
    CmdRes × Game :=
  let g1 := if g.initialized then g else make_space (init_board swaps g) x y nthRaw
  if (g1.tiles x y).flagged then (.contin, g1)
  else
    match reveal g1 x y with
    | some (false, g2) => (.lost, reveal_all g2)
    | some (true, g2) => (.contin, g2)
    | none => (.stuck, g1)

/-- `run_command(input)`: dispatch on the first character as the C
switch does.  `swaps` and `nthRaw` feed the random values consumed if
the board gets initialized, `confirm` the quit confirmation answer. -/
def run_command (swaps : Nat → Nat × Nat) (nthRaw : Nat) (confirm : Bool) (g : Game)
    (input : List Char) : CmdRes × Game :=
  match input with
  | [] => (.contin, g)
  | c :: rest =>
    if c = 'f' then
      match parse_location g rest with
      | none => (.invalid, g)
      | some (x, y) => flagAction swaps g x y
    else if c = 'h' ∨ c = '?' then (.help, g)
    else if c = 'q' then
      if g.initialized ∧ ¬confirm then (.contin, g)
      else (.quit, reveal_all (init_board swaps g))
    else
      let loc := if c = 'r' then parse_location g rest else parse_location g (c :: rest)
      match loc with
      | none => (.invalid, g)
      | some (x, y) => revealAction swaps nthRaw g x y

/-- `calc_score()`: `g_n_found * g_n_found * 1000 / g_width / g_height`
with C `int` division, which truncates toward zero (`Int.tdiv`). -/
def calc_score (g : Game) : Int :=
  ((g.nFound * g.nFound * 1000).tdiv (g.width : Int)).tdiv (g.height : Int)

/-- A fixed random sequence (all zeroes) for concrete runs. -/
def swaps0 : Nat → Nat × Nat := fun _ => (0, 0)

/-- The decimal value of a digit string, the grammar-side reading of
the row number of a position token. -/
def decValue (s : List Char) : Nat :=
  s.foldl (fun a c => a * 10 + (c.toNat - 48)) 0

/-- Written from the claim (C8): a position token is one capital
letter `A`-`Z` whose alphabet index is below the width, followed by a
nonempty run of decimal digits denoting a positive row number bounded
by the height, with nothing after it. -/
def strictPos (w h : Nat) (s : List Char) : Bool :=
  match s with
  | [] => false
  | c :: ds =>
    decide (c ∈ alphabet) && decide (alphabet.indexOf c < w) && !ds.isEmpty &&
      ds.all isdigitC && decide (1 ≤ decValue ds) && decide (decValue ds ≤ h)

/-- Written from the claim (C8): the claimed command grammar — an
optional one-letter kind prefix (`r`, `f`, `h`, `?`, `q`) followed by
an optional position token. -/
def strictGrammar (w h : Nat) (s : List Char) : Bool :=
  match s with
  | [] => true
  | c :: rest =>
    if c = 'r' ∨ c = 'f' ∨ c = 'h' ∨ c = '?' ∨ c = 'q' then
      rest.isEmpty || strictPos w h rest
    else strictPos w h s

/-- Written from the amended C8: a position actually accepted by the
parser — the uppercased first character is one of the first `width`
column letters (so the letter is matched case-insensitively), and the
`atoi` reading of the rest (decimal digit prefix, optional leading
whitespace and sign, trailing characters ignored) is a row within the
height. -/
def acceptedPos (g : Game) (s : List Char) : Bool :=
  match s with
  | [] => false
  | c :: num =>
    ((List.range g.width).any fun i => toupperC c = alphabet.getD i ' ') &&
      decide (1 ≤ atoiC num ∧ atoiC num ≤ (g.height : Int))

/-- Written from the amended C8: the command language the interpreter
actually accepts without reporting Invalid — the empty command, the
`h`, `?` and `q` commands with arbitrary trailing text, and the
position-bearing commands (`f`-prefixed, `r`-prefixed or a bare
position) whose position parses; the kind prefixes `f` and `r` always
require a position. -/
def acceptedGrammar (g : Game) (s : List Char) : Bool :=
  match s with
  | [] => true
  | c :: rest =>
    if c = 'f' then acceptedPos g rest
    else if c = 'h' ∨ c = '?' then true
    else if c = 'q' then true
    else if c = 'r' then acceptedPos g rest
    else acceptedPos g (c :: rest)

/-- The in-range cells of the board. -/
def grid (g : Game) : Finset (Int × Int) :=
  Finset.Ico (0 : Int) (g.width : Int) ×ˢ Finset.Ico (0 : Int) (g.height : Int)

/-- The number of mined in-range cells. -/
def mineCount (g : Game) : Nat :=
  ∑ p ∈ grid g, (if (g.tiles p.1 p.2).mine then 1 else 0)

/-- The number of unrevealed in-range cells: the potential of the
flood-fill termination measure. -/
def unrevCount (g : Game) : Nat :=
  ∑ p ∈ grid g, (if (g.tiles p.1 p.2).revealed then 0 else 1)

/-- One step back along the breadcrumb trail from `p`. -/
def nextPos (g : Game) (p : Int × Int) : Int × Int :=
  (p.1 + (g.tiles p.1 p.2).dx, p.2 + (g.tiles p.1 p.2).dy)

/-- The breadcrumb trail laid by the flood fill, from the current cell
back to the root: each cell points to its parent through its `dx`/`dy`
fields, every cell behind the head is already revealed, and the root
has offset zero. -/
inductive Trail (g : Game) : Int × Int → List (Int × Int) → Prop where
  | root (p : Int × Int) (hp : p ∈ grid g)
      (hdx : (g.tiles p.1 p.2).dx = 0) (hdy : (g.tiles p.1 p.2).dy = 0) :
      Trail g p [p]
  | cons (p : Int × Int) (l : List (Int × Int)) (hp : p ∈ grid g)
      (hnz : ¬((g.tiles p.1 p.2).dx = 0 ∧ (g.tiles p.1 p.2).dy = 0))
      (hrev : (g.tiles (nextPos g p).1 (nextPos g p).2).revealed = true)
      (ht : Trail g (nextPos g p) l) : Trail g p (p :: l)

/-! ### Basic lemmas about the state operations -/

theorem updTile_tiles (g : Game) (x y : Int) (f : Tile → Tile) (a b : Int) :
    (updTile g x y f).tiles a b =
      if a = x ∧ b = y then f (g.tiles a b) else g.tiles a b := rfl

@[simp] theorem updTile_width (g : Game) (x y : Int) (f : Tile → Tile) :
    (updTile g x y f).width = g.width := rfl

@[simp] theorem updTile_height (g : Game) (x y : Int) (f : Tile → Tile) :
    (updTile g x y f).height = g.height := rfl

@[simp] theorem updTile_nMines (g : Game) (x y : Int) (f : Tile → Tile) :
    (updTile g x y f).nMines = g.nMines := rfl

@[simp] theorem updTile_nFlags (g : Game) (x y : Int) (f : Tile → Tile) :
    (updTile g x y f).nFlags = g.nFlags := rfl

@[simp] theorem updTile_nFound (g : Game) (x y : Int) (f : Tile → Tile) :
    (updTile g x y f).nFound = g.nFound := rfl

theorem updTile_tiles_self (g : Game) (x y : Int) (f : Tile → Tile) :
    (updTile g x y f).tiles x y = f (g.tiles x y) := by
  simp [updTile_tiles]

theorem updTile_tiles_other (g : Game) (x y : Int) (f : Tile → Tile) (a b : Int)
    (h : ¬(a = x ∧ b = y)) : (updTile g x y f).tiles a b = g.tiles a b := by
  simp [updTile_tiles, h]

@[simp] theorem reveal_all_width (g : Game) : (reveal_all g).width = g.width := rfl

@[simp] theorem reveal_all_height (g : Game) : (reveal_all g).height = g.height := rfl

@[simp] theorem reveal_all_nMines (g : Game) : (reveal_all g).nMines = g.nMines := rfl

@[simp] theorem reveal_all_nFlags (g : Game) : (reveal_all g).nFlags = g.nFlags := rfl

@[simp] theorem reveal_all_nFound (g : Game) : (reveal_all g).nFound = g.nFound := rfl

theorem reveal_all_revealed (g : Game) (a b : Int) (h : inRangeP g a b) :
    ((reveal_all g).tiles a b).revealed = true := by
  simp [reveal_all, h]

/-! ### C10: display precedence of `revealed` over `flagged` -/

/-- C10: the rendering symbol gives `revealed` precedence over the
flag: a tile that is both revealed and flagged is displayed by its
revealed content — mine symbol, digit or blank — and never by the flag
symbol; the flag symbol appears exactly on unrevealed flagged tiles,
and the concealed symbol exactly on unrevealed unflagged tiles. -/
theorem c10_tile_char_precedence (g : Game) (x y : Int)
    (h8 : (g.tiles x y).around ≤ 8) :
    ((g.tiles x y).revealed = true → (g.tiles x y).flagged = true →
      tile_char g x y ≠ 'F' ∧
      tile_char g x y = (if (g.tiles x y).mine then '*'
        else if 0 < (g.tiles x y).around then Char.ofNat (48 + (g.tiles x y).around)
        else ' ')) ∧
    (tile_char g x y = 'F' ↔
      (g.tiles x y).revealed = false ∧ (g.tiles x y).flagged = true) ∧
    (tile_char g x y = '@' ↔
      (g.tiles x y).revealed = false ∧ (g.tiles x y).flagged = false) := by
  obtain ⟨⟨m, r, f, dx, dy, an, ar⟩, ht⟩ : ∃ t, g.tiles x y = t := ⟨_, rfl⟩
  simp only [ht] at h8 ⊢
  simp only [tile_char, ht]
  interval_cases ar <;> cases r <;> cases f <;> cases m <;> simp

/-- Witness for C10 at a concrete revealed-and-flagged mined tile. -/
theorem c10_tile_char_precedence_witness :
    (let g : Game := { mkGame 1 1 1 with
      tiles := fun _ _ => ⟨true, true, true, 0, 0, 0, 0⟩ }
    (g.tiles 0 0).around ≤ 8 ∧ (tile_char g 0 0 = 'F' ↔
      (g.tiles 0 0).revealed = false ∧ (g.tiles 0 0).flagged = true)) := by
  exact ⟨by decide, (c10_tile_char_precedence _ 0 0 (by decide)).2.1⟩

/-! ### C9: the score formula -/

/-- C9: on any legal board the score is `found² × 1000` divided by
`width × height` in truncating integer arithmetic: the sequential
division by width then height in `calc_score` equals the single
division by the product, and the intermediate product stays below
`2^31`, so 32-bit `int` arithmetic cannot overflow. -/
theorem c9_calc_score (g : Game) (h0 : 0 ≤ g.nFound) (h780 : g.nFound ≤ 780)
    (hw1 : 1 ≤ g.width) (hw : g.width ≤ 26) (hh1 : 1 ≤ g.height) (hh : g.height ≤ 30) :
    calc_score g = (g.nFound * g.nFound * 1000).tdiv ((g.width : Int) * (g.height : Int)) ∧
    g.nFound * g.nFound * 1000 < 2 ^ 31 := by
  obtain ⟨m, hm⟩ := Int.eq_ofNat_of_zero_le h0
  constructor
  · unfold calc_score
    rw [hm]
    have h1 : ((m : Int) * m * 1000) = ((m * m * 1000 : Nat) : Int) := by push_cast; ring
    have h2 : ((g.width : Int) * (g.height : Int)) = ((g.width * g.height : Nat) : Int) := by
      push_cast; ring
    rw [h1, h2, ← Int.ofNat_tdiv, ← Int.ofNat_tdiv, ← Int.ofNat_tdiv,
      Nat.div_div_eq_div_mul]
  · rw [hm]
    have hm780 : m ≤ 780 := by exact_mod_cast hm ▸ h780
    have hb : m * m * 1000 ≤ 780 * 780 * 1000 :=
      Nat.mul_le_mul_right _ (Nat.mul_le_mul hm780 hm780)
    calc ((m : Int) * m * 1000) = ((m * m * 1000 : Nat) : Int) := by push_cast; ring
      _ ≤ ((780 * 780 * 1000 : Nat) : Int) := by exact_mod_cast hb
      _ < 2 ^ 31 := by norm_num

/-- Witness for C9 on a 2 by 1 board with three found mines. -/
theorem c9_calc_score_witness :
    (let g : Game := { mkGame 2 1 40 with nFound := 3 }
    (0 ≤ g.nFound ∧ g.nFound ≤ 780 ∧ 1 ≤ g.width ∧ g.width ≤ 26 ∧
      1 ≤ g.height ∧ g.height ≤ 30) ∧
    calc_score g = (g.nFound * g.nFound * 1000).tdiv ((g.width : Int) * (g.height : Int))) :=
  ⟨⟨by decide, by decide, by decide, by decide, by decide, by decide⟩,
   (c9_calc_score _ (by decide) (by decide) (by decide) (by decide) (by decide)
     (by decide)).1⟩

/-! ### C7: revealing a mine loses without touching the counters -/

/-- C7: a reveal command on an initialized board whose target holds a
mine (and is not flagged) yields the loss outcome; the `reveal` call
itself returns the mine outcome with the board untouched (no flood
fill), the flag and found counters are unchanged, and the final loss
display has every in-range tile (in particular the mined one)
revealed. -/
theorem c7_reveal_mine_loses (swaps : Nat → Nat × Nat) (nthRaw : Nat) (g : Game)
    (x y : Int) (hinit : g.initialized = true) (hm : (g.tiles x y).mine = true)
    (hf : (g.tiles x y).flagged = false) :
    revealAction swaps nthRaw g x y = (CmdRes.lost, reveal_all g) ∧
    (revealAction swaps nthRaw g x y).2.nFlags = g.nFlags ∧
    (revealAction swaps nthRaw g x y).2.nFound = g.nFound ∧
    reveal g x y = some (false, g) ∧
    ∀ a b, inRangeP g a b → ((revealAction swaps nthRaw g x y).2.tiles a b).revealed = true := by
  have hrev : reveal g x y = some (false, g) := by simp [reveal, hm]
  have hra : revealAction swaps nthRaw g x y = (CmdRes.lost, reveal_all g) := by
    simp [revealAction, hinit, hf, hrev]
  refine ⟨hra, ?_, ?_, hrev, ?_⟩ <;> rw [hra]
  · rfl
  · rfl
  · exact fun a b h => reveal_all_revealed g a b h

/-- Witness for C7: the 1 by 1 board whose only tile is mined. -/
theorem c7_reveal_mine_loses_witness :
    ((init_board swaps0 (mkGame 1 1 1)).initialized = true ∧
     ((init_board swaps0 (mkGame 1 1 1)).tiles 0 0).mine = true ∧
     ((init_board swaps0 (mkGame 1 1 1)).tiles 0 0).flagged = false) ∧
    revealAction swaps0 0 (init_board swaps0 (mkGame 1 1 1)) 0 0 =
      (CmdRes.lost, reveal_all (init_board swaps0 (mkGame 1 1 1))) :=
  ⟨⟨by decide, by decide, by decide⟩,
   (c7_reveal_mine_loses swaps0 0 _ 0 0 (by decide) (by decide) (by decide)).1⟩

/-! ### C3: the win condition is checked exactly after flag toggles -/

/-- C3: the interpreter reports a win exactly when a flag command hits
an unrevealed tile (a successful toggle, flagging or unflagging) and
the toggled state satisfies `found == mines` and `flags == found`; a
reveal command never reports a win. -/
theorem c3_win_after_flag_toggle_only :
    (∀ (swaps : Nat → Nat × Nat) (g : Game) (x y : Int),
      (flagAction swaps g x y).1 = CmdRes.won ↔
        (g.tiles x y).revealed = false ∧
        (flagAction swaps g x y).2.nFound = ((flagAction swaps g x y).2.nMines : Int) ∧
        (flagAction swaps g x y).2.nFlags = (flagAction swaps g x y).2.nFound) ∧
    ∀ (swaps : Nat → Nat × Nat) (nthRaw : Nat) (g : Game) (x y : Int),
      (revealAction swaps nthRaw g x y).1 ≠ CmdRes.won := by
  constructor
  · intro swaps g x y
    by_cases hr : (g.tiles x y).revealed = true
    · simp [flagAction, hr]
    · rw [Bool.not_eq_true] at hr
      simp only [flagAction, hr, Bool.false_eq_true, if_false]
      split_ifs with h1 h2 <;> simp_all
  · intro swaps nthRaw g x y
    simp only [revealAction]
    by_cases hf :
        ((if g.initialized then g else make_space (init_board swaps g) x y nthRaw).tiles
          x y).flagged = true
    · simp [hf]
    · rw [Bool.not_eq_true] at hf
      simp only [hf, Bool.false_eq_true, if_false]
      rcases hrev :
          reveal (if g.initialized then g else make_space (init_board swaps g) x y nthRaw)
            x y with _ | ⟨b, g2⟩
      · simp [hrev]
      · cases b <;> simp [hrev]

/-! ### C1, C4: the flood fill walks into flagged tiles -/

/-- C1 fails on the code: on a 3 by 1 mineless board where the flag
command has flagged B1, revealing A1 flood fills through the flagged
tile, which ends up revealed (and still flagged).  The neighbour test
of the flood fill checks only `revealed`, never `flagged`. -/
theorem c1_flood_fill_reveals_flagged_tile :
    (let g1 := (run_command swaps0 0 false (mkGame 3 1 0) ['f', 'B', '1']).2
    (g1.tiles 1 0).flagged = true ∧ (g1.tiles 1 0).revealed = false ∧
    (reveal g1 0 0).map
        (fun p => (p.1, (p.2.tiles 1 0).revealed, (p.2.tiles 1 0).flagged)) =
      some (true, true, true)) := by
  decide

/-- C4 fails on the code: after the two commands `fB1` and `A1` on a
3 by 1 mineless board the game is still in the Playing state and the
tile B1 is simultaneously revealed and flagged; a further flag command
on B1 is a no-op, so the flag (counted in `g_n_flags`) can never be
removed again. -/
theorem c4_revealed_and_flagged_reachable :
    (let r1 := run_command swaps0 0 false (mkGame 3 1 0) ['f', 'B', '1']
    let r2 := run_command swaps0 0 false r1.2 ['A', '1']
    r1.1 = CmdRes.contin ∧ r2.1 = CmdRes.contin ∧
    (r2.2.tiles 1 0).revealed = true ∧ (r2.2.tiles 1 0).flagged = true ∧
    r2.2.nFlags = 1 ∧ r2.2.nFound = 0 ∧
    (run_command swaps0 0 false r2.2 ['f', 'B', '1']).2.nFlags = 1) := by
  decide

/-! ### C2: the cached around counts go stale on mine relocation -/

/-- C2 fails on the code: on a 2 by 1 board with one mine at A1, the
first reveal command `A1` relocates the mine to B1 but `make_space`
never recomputes the cached `around` fields, so afterwards A1 caches 0
where the true neighbouring mine count is 1 and B1 caches 1 where the
truth is 0.  The stale zero at A1 even makes the flood fill reveal the
relocated mine at B1 without ending the game. -/
theorem c2_stale_around_after_relocation :
    (let r := run_command swaps0 0 false (mkGame 2 1 1) ['A', '1']
    r.1 = CmdRes.contin ∧
    (r.2.tiles 0 0).mine = false ∧ (r.2.tiles 1 0).mine = true ∧
    (r.2.tiles 0 0).around = 0 ∧ adjMines r.2 0 0 = 1 ∧
    (r.2.tiles 1 0).around = 1 ∧ adjMines r.2 1 0 = 0 ∧
    (r.2.tiles 1 0).revealed = true) := by
  decide

/-! ### C8: the accepted command language -/

/-- C8 fails on the code, in both directions: the input `A1A` is not
in the claimed grammar (trailing junk after the row number) yet is not
reported Invalid, because `atoi` ignores trailing characters and the
tile A1 gets revealed; conversely the claimed grammar allows a bare
`r`, which the code reports as Invalid (the kind prefixes `r` and `f`
in fact require a position). -/
theorem c8_grammar_counterexample :
    strictGrammar 3 1 ['A', '1', 'A'] = false ∧
    (run_command swaps0 0 false (init_board swaps0 (mkGame 3 1 0)) ['A', '1', 'A']).1 ≠
      CmdRes.invalid ∧
    strictGrammar 3 1 ['r'] = true ∧
    (run_command swaps0 0 false (init_board swaps0 (mkGame 3 1 0)) ['r']).1 =
      CmdRes.invalid := by
  decide

/-! ### C5: the number of mines -/

theorem mem_grid (g : Game) (p : Int × Int) : p ∈ grid g ↔ inRangeP g p.1 p.2 := by
  simp only [grid, Finset.mem_product, Finset.mem_Ico, inRangeP]
  tauto

theorem grid_eq_of_dims (g g' : Game) (hw : g'.width = g.width)
    (hh : g'.height = g.height) : grid g' = grid g := by
  simp only [grid, hw, hh]

theorem mineCount_congr (g g' : Game) (hw : g'.width = g.width) (hh : g'.height = g.height)
    (h : ∀ r ∈ grid g, (g'.tiles r.1 r.2).mine = (g.tiles r.1 r.2).mine) :
    mineCount g' = mineCount g := by
  unfold mineCount
  rw [grid_eq_of_dims g g' hw hh]
  exact Finset.sum_congr rfl fun r hr => by rw [h r hr]

/-- A change of the board concentrated on two in-range cells whose
indicator weights are merely exchanged keeps the mine count. -/
theorem mineCount_two_point (g g' : Game) (p q : Int × Int) (hpq : p ≠ q)
    (hw : g'.width = g.width) (hh : g'.height = g.height)
    (hp : p ∈ grid g) (hq : q ∈ grid g)
    (hval : (if (g'.tiles p.1 p.2).mine then (1 : Nat) else 0) +
        (if (g'.tiles q.1 q.2).mine then 1 else 0) =
      (if (g.tiles p.1 p.2).mine then 1 else 0) +
        (if (g.tiles q.1 q.2).mine then 1 else 0))
    (hrest : ∀ r ∈ grid g, r ≠ p → r ≠ q →
      (g'.tiles r.1 r.2).mine = (g.tiles r.1 r.2).mine) :
    mineCount g' = mineCount g := by
  classical
  have hq' : q ∈ (grid g).erase p := Finset.mem_erase.mpr ⟨fun h => hpq h.symm, hq⟩
  have key : ∀ G : Game, grid G = grid g →
      mineCount G = (if (G.tiles p.1 p.2).mine then (1 : Nat) else 0) +
        ((if (G.tiles q.1 q.2).mine then 1 else 0) +
          ∑ r ∈ ((grid g).erase p).erase q, (if (G.tiles r.1 r.2).mine then 1 else 0)) := by
    intro G hG
    unfold mineCount
    rw [hG, ← Finset.add_sum_erase _ _ hp, ← Finset.add_sum_erase _ _ hq']
  rw [key g' (grid_eq_of_dims g g' hw hh), key g rfl, ← add_assoc, ← add_assoc, hval]
  congr 1
  refine Finset.sum_congr rfl fun r hr => ?_
  have h1 := Finset.mem_erase.mp hr
  have h2 := Finset.mem_erase.mp h1.2
  rw [hrest r h2.2 h2.1 h1.1]

/-- Mine-count preservation through a fold whose every step preserves
the dimensions and the count. -/
theorem foldl_mineCount {α : Type} (W H : Nat) (l : List α) (F : Game → α → Game)
    (hF : ∀ g a, a ∈ l → g.width = W → g.height = H →
      (F g a).width = W ∧ (F g a).height = H ∧ mineCount (F g a) = mineCount g) :
    ∀ g, g.width = W → g.height = H →
      mineCount (l.foldl F g) = mineCount g ∧
      (l.foldl F g).width = W ∧ (l.foldl F g).height = H := by
  induction l with
  | nil => exact fun g hw hh => ⟨rfl, hw, hh⟩
  | cons a t ih =>
    intro g hw hh
    obtain ⟨hw', hh', hc⟩ := hF g a (List.mem_cons_self a t) hw hh
    obtain ⟨ihc, ihw, ihh⟩ := ih (fun g' b hb => hF g' b (List.mem_cons_of_mem a hb))
      (F g a) hw' hh'
    exact ⟨ihc.trans hc, ihw, ihh⟩

theorem swapTiles_tiles (g : Game) (p q : Int × Int) (a b : Int) :
    (swapTiles g p q).tiles a b =
      if (a, b) = q then g.tiles p.1 p.2
      else if (a, b) = p then g.tiles q.1 q.2
      else g.tiles a b := by
  by_cases hq : (a, b) = q
  · have ha : a = q.1 := by rw [← hq]
    have hb : b = q.2 := by rw [← hq]
    subst ha hb
    simp [swapTiles, updTile_tiles]
  · have hq' : ¬(a = q.1 ∧ b = q.2) := fun ⟨h1, h2⟩ => hq (Prod.ext h1 h2)
    by_cases hp : (a, b) = p
    · have ha : a = p.1 := by rw [← hp]
      have hb : b = p.2 := by rw [← hp]
      subst ha hb
      simp [swapTiles, updTile_tiles, hq', hq]
    · have hp' : ¬(a = p.1 ∧ b = p.2) := fun ⟨h1, h2⟩ => hp (Prod.ext h1 h2)
      simp [swapTiles, updTile_tiles, hq', hp', hq, hp]

theorem swapTiles_mineCount (g : Game) (p q : Int × Int) (hp : p ∈ grid g)
    (hq : q ∈ grid g) : mineCount (swapTiles g p q) = mineCount g := by
  by_cases hpq : p = q
  · subst hpq
    refine mineCount_congr g _ rfl rfl fun r _ => ?_
    rw [swapTiles_tiles]
    split_ifs with h1
    · rw [← h1]
    · rfl
  · refine mineCount_two_point g _ p q hpq rfl rfl hp hq ?_ ?_
    · rw [swapTiles_tiles, swapTiles_tiles]
      simp only [Prod.mk.eta]
      rw [if_neg hpq]
      simp only [if_true, ite_self, eq_self_iff_true]
      exact Nat.add_comm _ _
    · intro r _ hrp hrq
      rw [swapTiles_tiles]
      simp only [Prod.mk.eta]
      rw [if_neg hrq, if_neg hrp]

theorem foldl_dims {α : Type} (l : List α) (F : Game → α → Game)
    (hF : ∀ g a, (F g a).width = g.width ∧ (F g a).height = g.height ∧
      (F g a).nMines = g.nMines) :
    ∀ g, (l.foldl F g).width = g.width ∧ (l.foldl F g).height = g.height ∧
      (l.foldl F g).nMines = g.nMines := by
  induction l with
  | nil => exact fun g => ⟨rfl, rfl, rfl⟩
  | cons a t ih =>
    intro g
    obtain ⟨h1, h2, h3⟩ := hF g a
    obtain ⟨i1, i2, i3⟩ := ih (F g a)
    exact ⟨i1.trans h1, i2.trans h2, i3.trans h3⟩

/-- After the first `init_board` loop a tile is mined iff it was
before or it is one of the first `n` cells in x-fastest order. -/
theorem placeFold_mine (w : Nat) (n : Nat) (g : Game) (a b : Int) :
    (((List.range n).foldl (fun g' i => updTile g' (fillPos w i).1 (fillPos w i).2
        fun t => { t with mine := true }) g).tiles a b).mine = true ↔
      (g.tiles a b).mine = true ∨ ∃ i, i < n ∧ fillPos w i = (a, b) := by
  induction n generalizing g with
  | zero => simp
  | succ n ih =>
    rw [List.range_succ, List.foldl_append, List.foldl_cons, List.foldl_nil, updTile_tiles]
    by_cases hab : a = (fillPos w n).1 ∧ b = (fillPos w n).2
    · rw [if_pos hab]
      constructor
      · intro _
        exact Or.inr ⟨n, Nat.lt_succ_self n, Prod.ext hab.1.symm hab.2.symm⟩
      · intro _
        rfl
    · rw [if_neg hab, ih]
      constructor
      · rintro (hm | ⟨i, hi, hfi⟩)
        · exact Or.inl hm
        · exact Or.inr ⟨i, Nat.lt_succ_of_lt hi, hfi⟩
      · rintro (hm | ⟨i, hi, hfi⟩)
        · exact Or.inl hm
        · rcases Nat.lt_succ_iff_lt_or_eq.mp hi with hi' | rfl
          · exact Or.inr ⟨i, hi', hfi⟩
          · exact absurd ⟨congrArg Prod.fst hfi.symm, congrArg Prod.snd hfi.symm⟩ hab

/-- `fillPos w i` is in range for `i < w * h`. -/
theorem fillPos_mem_grid (g : Game) (w : Nat) (i : Nat) (hw : g.width = w)
    (h1 : 1 ≤ w) (hi : i < w * g.height) : fillPos w i ∈ grid g := by
  rw [mem_grid]
  dsimp only [fillPos]
  unfold inRangeP
  refine ⟨Int.ofNat_nonneg _, ?_, Int.ofNat_nonneg _, ?_⟩
  · rw [hw]
    exact_mod_cast Nat.mod_lt i h1
  · have h2 : i < g.height * w := by rw [Nat.mul_comm]; exact hi
    have h3 : i / w < g.height := (Nat.div_lt_iff_lt_mul h1).mpr h2
    exact_mod_cast h3

theorem placeMines_mineCount (w h n : Nat) (h1 : 1 ≤ w) (hn : n ≤ w * h) :
    mineCount (placeMines { mkGame w h n with initialized := true }) = n := by
  classical
  set g0 : Game := { mkGame w h n with initialized := true } with hg0
  have hdims := foldl_dims (List.range n)
    (fun g' i => updTile g' (fillPos w i).1 (fillPos w i).2 fun t => { t with mine := true })
    (fun g' i => ⟨rfl, rfl, rfl⟩) g0
  have hmine : ∀ a b : Int, ((placeMines g0).tiles a b).mine = true ↔
      ∃ i, i < n ∧ fillPos w i = (a, b) := by
    intro a b
    have hfold := placeFold_mine w n g0 a b
    have hg0m : (g0.tiles a b).mine = false := rfl
    rw [hg0m] at hfold
    simpa using hfold
  set S : Finset (Int × Int) := (Finset.range n).image (fillPos w) with hS
  have hSgrid : S ⊆ grid g0 := by
    intro p hp
    rw [hS, Finset.mem_image] at hp
    obtain ⟨i, hi, rfl⟩ := hp
    rw [Finset.mem_range] at hi
    exact fillPos_mem_grid g0 w i rfl h1 (show i < w * h by omega)
  have hgrid : grid (placeMines g0) = grid g0 :=
    grid_eq_of_dims g0 _ hdims.1 hdims.2.1
  unfold mineCount
  rw [hgrid]
  have hcongr : ∀ p ∈ grid g0,
      (if ((placeMines g0).tiles p.1 p.2).mine then (1 : Nat) else 0) =
      if p ∈ S then 1 else 0 := by
    intro p _
    refine if_congr ?_ rfl rfl
    rw [show ((placeMines g0).tiles p.1 p.2).mine ↔
      ((placeMines g0).tiles p.1 p.2).mine = true from Iff.rfl]
    rw [hmine p.1 p.2, hS]
    simp only [Finset.mem_image, Finset.mem_range, Prod.mk.eta]
  rw [Finset.sum_congr rfl hcongr, ← Finset.card_filter, Finset.filter_mem_eq_inter,
    Finset.inter_eq_right.mpr hSgrid, hS]
  rw [Finset.card_image_of_injOn, Finset.card_range]
  intro i hi j hj hij
  have h2 : ((i % w : Nat) : Int) = ((j % w : Nat) : Int) := congrArg Prod.fst hij
  have h3 : ((i / w : Nat) : Int) = ((j / w : Nat) : Int) := congrArg Prod.snd hij
  have h4 : i % w = j % w := by exact_mod_cast h2
  have h5 : i / w = j / w := by exact_mod_cast h3
  have h6 := Nat.div_add_mod i w
  have h7 := Nat.div_add_mod j w
  rw [h4, h5, h7] at h6
  exact h6.symm

theorem swapPhase_mineCount (swaps : Nat → Nat × Nat) (g : Game) (h1 : 1 ≤ g.width)
    (h2 : 1 ≤ g.height) (hn : g.nMines ≤ g.width * g.height) :
    mineCount (swapPhase swaps g) = mineCount g ∧
    (swapPhase swaps g).width = g.width ∧ (swapPhase swaps g).height = g.height := by
  have key := foldl_mineCount g.width g.height (List.range g.nMines)
    (fun g' i => swapTiles g' (fillPos g.width i)
      ((((swaps i).1 % g.width : Nat) : Int), (((swaps i).2 % g.height : Nat) : Int)))
    (fun g' i hi hw hh => by
      refine ⟨hw, hh, ?_⟩
      rw [List.mem_range] at hi
      refine swapTiles_mineCount g' _ _ ?_ ?_
      · refine fillPos_mem_grid g' g.width i hw h1 ?_
        rw [hh]
        omega
      · rw [mem_grid]
        unfold inRangeP
        dsimp only
        refine ⟨Int.ofNat_nonneg _, ?_, Int.ofNat_nonneg _, ?_⟩
        · rw [hw]; exact_mod_cast Nat.mod_lt _ h1
        · rw [hh]; exact_mod_cast Nat.mod_lt _ h2) g rfl rfl
  exact ⟨key.1, key.2.1, key.2.2⟩

theorem computeAround_mine (g : Game) (a b : Int) :
    ((computeAround g).tiles a b).mine = (g.tiles a b).mine := by
  unfold computeAround
  dsimp only
  split_ifs <;> rfl

theorem computeAround_mineCount (g : Game) : mineCount (computeAround g) = mineCount g :=
  mineCount_congr g _ rfl rfl fun r _ => computeAround_mine g r.1 r.2

/-- The second half of C5's first part: after `init_board` on a fresh
game exactly `n` tiles are mined. -/
theorem init_board_mineCount (swaps : Nat → Nat × Nat) (w h n : Nat) (h1 : 1 ≤ w)
    (h2 : 1 ≤ h) (hn : n ≤ w * h) :
    mineCount (init_board swaps (mkGame w h n)) = n := by
  have hinit : (mkGame w h n).initialized = false := rfl
  unfold init_board
  rw [hinit]
  simp only [Bool.false_eq_true, if_false]
  rw [computeAround_mineCount]
  have hplace := placeMines_mineCount w h n h1 hn
  have hdims := foldl_dims (List.range n)
    (fun g' i => updTile g' (fillPos w i).1 (fillPos w i).2 fun t => { t with mine := true })
    (fun g' i => ⟨rfl, rfl, rfl⟩) { mkGame w h n with initialized := true }
  have hpw : (placeMines { mkGame w h n with initialized := true }).width = w := hdims.1
  have hph : (placeMines { mkGame w h n with initialized := true }).height = h := hdims.2.1
  have hpn : (placeMines { mkGame w h n with initialized := true }).nMines = n := hdims.2.2
  have hsw := swapPhase_mineCount swaps (placeMines { mkGame w h n with initialized := true })
    (by rw [hpw]; exact h1) (by rw [hph]; exact h2) (by rw [hpn, hpw, hph]; exact hn)
  rw [hsw.1, hplace]

theorem findSpace_spec (g : Game) : ∀ (l : List (Int × Int)) (nth : Nat) (c : Int × Int),
    findSpace g l nth = some c → c ∈ l ∧ (g.tiles c.1 c.2).mine = false := by
  intro l
  induction l with
  | nil => intro nth c h; simp [findSpace] at h
  | cons d t ih =>
    intro nth c h
    unfold findSpace at h
    split_ifs at h with hm hz
    · obtain ⟨hc, hc'⟩ := ih nth c h
      exact ⟨List.mem_cons_of_mem _ hc, hc'⟩
    · obtain rfl : d = c := by injection h
      exact ⟨List.mem_cons_self _ _, by rwa [Bool.not_eq_true] at hm⟩
    · obtain ⟨hc, hc'⟩ := ih (nth - 1) c h
      exact ⟨List.mem_cons_of_mem _ hc, hc'⟩

theorem scanCells_mem_grid (g : Game) (c : Int × Int) (h : c ∈ scanCells g) :
    c ∈ grid g := by
  simp only [scanCells, List.mem_flatMap, List.mem_map, List.mem_range] at h
  obtain ⟨iy, hiy, ix, hix, rfl⟩ := h
  rw [mem_grid]
  unfold inRangeP
  dsimp only
  exact ⟨Int.ofNat_nonneg _, by exact_mod_cast hix, Int.ofNat_nonneg _, by exact_mod_cast hiy⟩

theorem make_space_mineCount (g : Game) (x y : Int) (nthRaw : Nat)
    (hxy : inRangeP g x y) : mineCount (make_space g x y nthRaw) = mineCount g := by
  unfold make_space
  split_ifs with hm hfull
  · rfl
  · rfl
  · rcases hfs : findSpace g (scanCells g) (nthRaw % (g.width * g.height - g.nMines))
      with _ | c
    · rfl
    · obtain ⟨hcl, hcm⟩ := findSpace_spec g _ _ _ hfs
      have hcg : c ∈ grid g := scanCells_mem_grid g c hcl
      have hxm : (g.tiles x y).mine = true := by
        cases hmv : (g.tiles x y).mine
        · exact absurd (by rw [hmv]; rfl) hm
        · rfl
      have hne : (x, y) ≠ c := fun hc => by
        have he : (g.tiles x y).mine = (g.tiles c.1 c.2).mine := by rw [← hc]
        rw [hxm, hcm] at he
        exact Bool.noConfusion he
      refine mineCount_two_point g _ (x, y) c hne rfl rfl ((mem_grid g _).mpr hxy) hcg ?_ ?_
      · dsimp only
        rw [updTile_tiles_other _ c.1 c.2 _ x y
            (fun hcc => hne (by rw [hcc.1, hcc.2])),
          updTile_tiles_self, updTile_tiles_self]
        simp [hxm, hcm]
      · intro r _ hrp hrq
        rw [updTile_tiles_other _ _ _ _ _ _ (fun hc => hrq (Prod.ext hc.1 hc.2)),
          updTile_tiles_other _ _ _ _ _ _ (fun hc => hrp (Prod.ext hc.1 hc.2))]

/-- C5: once the board is initialized exactly `mine_count` tiles hold a
mine, and the first-click relocation `make_space` preserves that
total: whenever it changes the board at all it has moved the mine to a
previously unmined in-range tile, and a board with a positive mine
count keeps a positive mine count. -/
theorem c5_mine_count_invariant :
    (∀ (swaps : Nat → Nat × Nat) (w h n : Nat), 1 ≤ w → 1 ≤ h → n ≤ w * h →
      mineCount (init_board swaps (mkGame w h n)) = n) ∧
    (∀ (g : Game) (x y : Int) (nthRaw : Nat), inRangeP g x y →
      mineCount (make_space g x y nthRaw) = mineCount g) ∧
    (∀ (g : Game) (x y : Int) (nthRaw : Nat), inRangeP g x y →
      make_space g x y nthRaw ≠ g →
      ∃ p, p ∈ grid g ∧ (g.tiles p.1 p.2).mine = false ∧
        ((make_space g x y nthRaw).tiles p.1 p.2).mine = true) ∧
    (∀ (g : Game) (x y : Int) (nthRaw : Nat), inRangeP g x y → 0 < mineCount g →
      0 < mineCount (make_space g x y nthRaw)) := by
  refine ⟨fun swaps w h n a b c => init_board_mineCount swaps w h n a b c,
    fun g x y nthRaw hr => make_space_mineCount g x y nthRaw hr, ?_,
    fun g x y nthRaw hr hp => by rw [make_space_mineCount g x y nthRaw hr]; exact hp⟩
  intro g x y nthRaw hxy hne
  unfold make_space at hne ⊢
  split_ifs at hne ⊢ with hm hfull
  · exact absurd rfl hne
  · exact absurd rfl hne
  · rcases hfs : findSpace g (scanCells g) (nthRaw % (g.width * g.height - g.nMines))
      with _ | c
    · rw [hfs] at hne
      exact absurd rfl hne
    · obtain ⟨hcl, hcm⟩ := findSpace_spec g _ _ _ hfs
      refine ⟨c, scanCells_mem_grid g c hcl, hcm, ?_⟩
      show ((updTile (updTile g x y fun t => { t with mine := false }) c.1 c.2
        fun t => { t with mine := true }).tiles c.1 c.2).mine = true
      rw [updTile_tiles_self]

/-- Witness for C5 on a 2 by 1 board with one mine. -/
theorem c5_mine_count_invariant_witness :
    ((1 ≤ 2 ∧ 1 ≤ 1 ∧ 1 ≤ 2 * 1) ∧
      mineCount (init_board swaps0 (mkGame 2 1 1)) = 1) ∧
    (inRangeP (init_board swaps0 (mkGame 2 1 1)) 0 0 ∧
      mineCount (make_space (init_board swaps0 (mkGame 2 1 1)) 0 0 0) =
        mineCount (init_board swaps0 (mkGame 2 1 1))) :=
  ⟨⟨⟨by decide, by decide, by decide⟩,
    c5_mine_count_invariant.1 swaps0 2 1 1 (by decide) (by decide) (by decide)⟩,
   ⟨by decide, c5_mine_count_invariant.2.1 _ 0 0 0 (by decide)⟩⟩

/-! ### C6: termination of the breadcrumb flood fill -/

theorem updTile_revealed_pres (g : Game) (x y : Int) (f : Tile → Tile)
    (hf : ∀ t, (f t).revealed = t.revealed) (a b : Int) :
    ((updTile g x y f).tiles a b).revealed = (g.tiles a b).revealed := by
  rw [updTile_tiles]
  split_ifs with h
  · rw [hf]
  · rfl

theorem updTile_dx_pres (g : Game) (x y : Int) (f : Tile → Tile)
    (hf : ∀ t, (f t).dx = t.dx) (a b : Int) :
    ((updTile g x y f).tiles a b).dx = (g.tiles a b).dx := by
  rw [updTile_tiles]
  split_ifs with h
  · rw [hf]
  · rfl

theorem updTile_dy_pres (g : Game) (x y : Int) (f : Tile → Tile)
    (hf : ∀ t, (f t).dy = t.dy) (a b : Int) :
    ((updTile g x y f).tiles a b).dy = (g.tiles a b).dy := by
  rw [updTile_tiles]
  split_ifs with h
  · rw [hf]
  · rfl

theorem updAngle_revealed (g : Game) (x y : Int) (a' : Nat) (p q : Int) :
    ((updTile g x y fun u => { u with angle := a' }).tiles p q).revealed =
      (g.tiles p q).revealed :=
  updTile_revealed_pres g x y (fun u => { u with angle := a' }) (fun t => rfl) p q

theorem updAngle_dx (g : Game) (x y : Int) (a' : Nat) (p q : Int) :
    ((updTile g x y fun u => { u with angle := a' }).tiles p q).dx = (g.tiles p q).dx :=
  updTile_dx_pres g x y (fun u => { u with angle := a' }) (fun t => rfl) p q

theorem updAngle_dy (g : Game) (x y : Int) (a' : Nat) (p q : Int) :
    ((updTile g x y fun u => { u with angle := a' }).tiles p q).dy = (g.tiles p q).dy :=
  updTile_dy_pres g x y (fun u => { u with angle := a' }) (fun t => rfl) p q

theorem setRevealed_dx (g : Game) (x y : Int) (p q : Int) :
    ((setRevealed g x y).tiles p q).dx = (g.tiles p q).dx :=
  updTile_dx_pres g x y (fun t => { t with revealed := true }) (fun t => rfl) p q

theorem setRevealed_dy (g : Game) (x y : Int) (p q : Int) :
    ((setRevealed g x y).tiles p q).dy = (g.tiles p q).dy :=
  updTile_dy_pres g x y (fun t => { t with revealed := true }) (fun t => rfl) p q

theorem updDxy_revealed (g : Game) (x y dx0 dy0 : Int) (p q : Int) :
    ((updTile g x y fun u => { u with dx := dx0, dy := dy0 }).tiles p q).revealed =
      (g.tiles p q).revealed :=
  updTile_revealed_pres g x y (fun u => { u with dx := dx0, dy := dy0 }) (fun t => rfl) p q

theorem setRevealed_self (g : Game) (x y : Int) :
    ((setRevealed g x y).tiles x y).revealed = true := by
  rw [setRevealed, updTile_tiles_self]

theorem setRevealed_rev_mono (g : Game) (x y a b : Int)
    (h : (g.tiles a b).revealed = true) :
    ((setRevealed g x y).tiles a b).revealed = true := by
  rw [setRevealed, updTile_tiles]
  split_ifs with hc
  · rfl
  · exact h

theorem trail_length_pos (g : Game) (p : Int × Int) (l : List (Int × Int))
    (ht : Trail g p l) : 0 < l.length := by
  cases ht <;> simp

theorem trail_mem (g : Game) (p : Int × Int) (l : List (Int × Int)) (ht : Trail g p l) :
    ∀ q ∈ l, q = p ∨ (g.tiles q.1 q.2).revealed = true := by
  induction ht with
  | root p hp hdx hdy =>
    intro q hq
    rw [List.mem_singleton] at hq
    exact Or.inl hq
  | cons p l hp hnz hrev ht ih =>
    intro q hq
    rcases List.mem_cons.mp hq with rfl | hq'
    · exact Or.inl rfl
    · rcases ih q hq' with rfl | h
      · exact Or.inr hrev
      · exact Or.inr h

theorem trail_transfer (g g' : Game) (hw : g'.width = g.width) (hh : g'.height = g.height)
    (hrev : ∀ a b : Int, (g.tiles a b).revealed = true → (g'.tiles a b).revealed = true)
    (p : Int × Int) (l : List (Int × Int)) (ht : Trail g p l)
    (hdxy : ∀ q ∈ l, (g'.tiles q.1 q.2).dx = (g.tiles q.1 q.2).dx ∧
      (g'.tiles q.1 q.2).dy = (g.tiles q.1 q.2).dy) :
    Trail g' p l := by
  induction ht with
  | root p hp hdx hdy =>
    refine Trail.root p ?_ ?_ ?_
    · rw [grid_eq_of_dims g g' hw hh]
      exact hp
    · rw [(hdxy p (List.mem_singleton_self p)).1]
      exact hdx
    · rw [(hdxy p (List.mem_singleton_self p)).2]
      exact hdy
  | cons p l hp hnz hrevp ht ih =>
    have hdp := hdxy p (List.mem_cons_self p l)
    have hnp : nextPos g' p = nextPos g p := by
      unfold nextPos
      rw [hdp.1, hdp.2]
    refine Trail.cons p l ?_ ?_ ?_ ?_
    · rw [grid_eq_of_dims g g' hw hh]
      exact hp
    · rw [hdp.1, hdp.2]
      exact hnz
    · rw [hnp]
      exact hrev _ _ hrevp
    · rw [hnp]
      exact ih fun q hq => hdxy q (List.mem_cons_of_mem p hq)

theorem unrevCount_congr (g g' : Game) (hw : g'.width = g.width) (hh : g'.height = g.height)
    (h : ∀ r ∈ grid g, (g'.tiles r.1 r.2).revealed = (g.tiles r.1 r.2).revealed) :
    unrevCount g' = unrevCount g := by
  unfold unrevCount
  rw [grid_eq_of_dims g g' hw hh]
  exact Finset.sum_congr rfl fun r hr => by rw [h r hr]

theorem unrevCount_setRevealed_old (g : Game) (x y : Int)
    (hu : (g.tiles x y).revealed = true) :
    unrevCount (setRevealed g x y) = unrevCount g := by
  refine unrevCount_congr g _ rfl rfl fun r hr => ?_
  rw [setRevealed, updTile_tiles]
  split_ifs with h
  · rw [h.1, h.2, hu]
  · rfl

theorem unrevCount_setRevealed_new (g : Game) (x y : Int) (hp : (x, y) ∈ grid g)
    (hu : (g.tiles x y).revealed = false) :
    unrevCount (setRevealed g x y) + 1 = unrevCount g := by
  unfold unrevCount
  rw [show grid (setRevealed g x y) = grid g from grid_eq_of_dims g _ rfl rfl,
    ← Finset.add_sum_erase _ _ hp, ← Finset.add_sum_erase _ _ hp]
  have h2 : ∀ r ∈ (grid g).erase (x, y),
      (if ((setRevealed g x y).tiles r.1 r.2).revealed then (0 : Nat) else 1) =
      if (g.tiles r.1 r.2).revealed then 0 else 1 := by
    intro r hr
    have hne := (Finset.mem_erase.mp hr).1
    rw [setRevealed, updTile_tiles_other _ _ _ _ _ _ fun hc => hne (Prod.ext hc.1 hc.2)]
  rw [Finset.sum_congr rfl h2]
  have h1 : ((setRevealed g x y).tiles (x, y).1 (x, y).2).revealed = true :=
    setRevealed_self g x y
  rw [h1]
  have h3 : (g.tiles (x, y).1 (x, y).2).revealed = false := hu
  rw [h3]
  simp only [eq_self_iff_true, if_true, Bool.false_eq_true, if_false]
  omega

theorem unrevCount_le (g : Game) : unrevCount g ≤ g.width * g.height := by
  have h1 : unrevCount g ≤ (grid g).card • 1 :=
    Finset.sum_le_card_nsmul _ _ 1 fun p _ => by split_ifs <;> omega
  have h2 : (grid g).card = g.width * g.height := by
    rw [grid, Finset.card_product, Int.card_Ico, Int.card_Ico]
    simp
  rw [h2, smul_eq_mul, mul_one] at h1
  exact h1

theorem scanFrom_some_spec (g : Game) (x y : Int) (a0 a : Nat)
    (h : scanFrom g x y a0 = some a) :
    a < 8 ∧ inRangeP g (x + cosine a) (y + sine a) ∧
    (g.tiles (x + cosine a) (y + sine a)).revealed = false := by
  unfold scanFrom at h
  have h1 : angleOK g x y a = true := List.find?_some h
  have h2 : a ∈ (List.range 8).drop a0 := List.mem_of_find?_eq_some h
  have h3 : a < 8 := List.mem_range.mp (List.drop_subset _ _ h2)
  unfold angleOK at h1
  simp only [Bool.and_eq_true, decide_eq_true_eq, Bool.not_eq_true'] at h1
  exact ⟨h3, h1.1, h1.2⟩

theorem dir_nonzero (a : Nat) (ha : a < 8) : ¬(cosine a = 0 ∧ sine a = 0) := by
  interval_cases a <;> simp [cosine, sine, sines]

/-- One continuing iteration of the `reveal` loop keeps a breadcrumb
trail and decreases the measure `2 * unrevealed + trail length` by
exactly one: a descend reveals a fresh tile and lengthens the trail, a
backtrack shortens the trail. -/
theorem revealStep_cont (s s' : LoopState) (l : List (Int × Int))
    (ht : Trail s.g (s.x, s.y) l) (hstep : revealStep s = .cont s') :
    ∃ l', Trail s'.g (s'.x, s'.y) l' ∧
      2 * unrevCount (setRevealed s'.g s'.x s'.y) + l'.length + 1 =
        2 * unrevCount (setRevealed s.g s.x s.y) + l.length := by
  obtain ⟨g, x, y⟩ := s
  dsimp only at ht ⊢
  unfold revealStep at hstep
  dsimp only at hstep
  set g1 := setRevealed g x y with hg1
  rcases hsc : (if (g1.tiles x y).around = 0 then scanFrom g1 x y (g1.tiles x y).angle
      else none) with _ | a
  · -- the scan found nothing: reset the angle and backtrack (or halt)
    rw [hsc] at hstep
    set g2 := updTile g1 x y (fun u => { u with angle := 0 }) with hg2
    by_cases hz : (g2.tiles x y).dx = 0 ∧ (g2.tiles x y).dy = 0
    · rw [if_pos hz] at hstep
      exact absurd hstep (by simp)
    · rw [if_neg hz] at hstep
      have hs' : s' = ⟨g2, x + (g2.tiles x y).dx, y + (g2.tiles x y).dy⟩ := by
        injection hstep with h
        exact h.symm
      subst hs'
      dsimp only
      have hrevmono : ∀ a b : Int, (g.tiles a b).revealed = true →
          (g2.tiles a b).revealed = true := by
        intro a b h
        rw [hg2, updAngle_revealed]
        exact setRevealed_rev_mono g x y a b h
      have hdx2 : ∀ a b : Int, (g2.tiles a b).dx = (g.tiles a b).dx := by
        intro a b
        rw [hg2, updAngle_dx, hg1, setRevealed_dx]
      have hdy2 : ∀ a b : Int, (g2.tiles a b).dy = (g.tiles a b).dy := by
        intro a b
        rw [hg2, updAngle_dy, hg1, setRevealed_dy]
      have htr2 : Trail g2 (x, y) l :=
        trail_transfer g g2 rfl rfl hrevmono _ _ ht fun q _ => ⟨hdx2 q.1 q.2, hdy2 q.1 q.2⟩
      have hrev2 : ∀ a b : Int, (g2.tiles a b).revealed = (g1.tiles a b).revealed :=
        fun a b => updAngle_revealed g1 x y 0 a b
      cases htr2 with
      | root _ _ hdxr hdyr => exact absurd ⟨hdxr, hdyr⟩ hz
      | cons _ ltail hp hnz hrevn httail =>
        refine ⟨ltail, httail, ?_⟩
        have hU2 : unrevCount (setRevealed g2 (x + (g2.tiles x y).dx)
            (y + (g2.tiles x y).dy)) = unrevCount g2 :=
          unrevCount_setRevealed_old g2 _ _ hrevn
        have hU1 : unrevCount g2 = unrevCount g1 :=
          unrevCount_congr g1 g2 rfl rfl fun r _ => hrev2 r.1 r.2
        rw [hU2, hU1]
        simp only [List.length_cons]
        omega
  · -- the scan found angle `a`: descend into the neighbour
    have h0 : scanFrom g1 x y ((g1.tiles x y).angle) = some a := by
      by_cases h : (g1.tiles x y).around = 0
      · rw [if_pos h] at hsc
        exact hsc
      · rw [if_neg h] at hsc
        exact absurd hsc (by simp)
    obtain ⟨ha8, hinr, hunrev⟩ := scanFrom_some_spec g1 x y _ a h0
    rw [hsc] at hstep
    dsimp only at hstep
    set ax := x + cosine a with hax
    set ay := y + sine a with hay
    set g2 := updTile g1 x y (fun u => { u with angle := a }) with hg2
    set g3 := updTile g2 ax ay (fun u => { u with dx := x - ax, dy := y - ay }) with hg3
    have hs' : s' = ⟨g3, ax, ay⟩ := by
      injection hstep with h
      exact h.symm
    subst hs'
    dsimp only
    -- basic tile facts
    have hxyrev : (g1.tiles x y).revealed = true := setRevealed_self g x y
    have hne : ¬(x = ax ∧ y = ay) := by
      intro hc
      rw [hc.1, hc.2] at hxyrev
      rw [hxyrev] at hunrev
      exact Bool.noConfusion hunrev
    have hrev2 : ∀ a' b' : Int, (g2.tiles a' b').revealed = (g1.tiles a' b').revealed :=
      fun a' b' => updAngle_revealed g1 x y a a' b'
    have hrev3 : ∀ a' b' : Int, (g3.tiles a' b').revealed = (g2.tiles a' b').revealed :=
      fun a' b' => updDxy_revealed g2 ax ay (x - ax) (y - ay) a' b'
    have hdx3self : (g3.tiles ax ay).dx = x - ax := by
      rw [hg3, updTile_tiles_self]
    have hdy3self : (g3.tiles ax ay).dy = y - ay := by
      rw [hg3, updTile_tiles_self]
    have hnp : nextPos g3 (ax, ay) = (x, y) := by
      unfold nextPos
      dsimp only
      rw [hdx3self, hdy3self, Prod.mk.injEq]
      constructor <;> ring
    have hg3xy : (g3.tiles x y).revealed = true := by
      rw [hrev3, hrev2]
      exact hxyrev
    -- the child is unrevealed in g3
    have hunrev3 : (g3.tiles ax ay).revealed = false := by
      rw [hrev3, hrev2]
      exact hunrev
    -- the trail lives on in g3
    have hrevmono : ∀ a' b' : Int, (g.tiles a' b').revealed = true →
        (g3.tiles a' b').revealed = true := by
      intro a' b' h
      rw [hrev3, hrev2]
      exact setRevealed_rev_mono g x y a' b' h
    have hdxy3 : ∀ q ∈ l, (g3.tiles q.1 q.2).dx = (g.tiles q.1 q.2).dx ∧
        (g3.tiles q.1 q.2).dy = (g.tiles q.1 q.2).dy := by
      intro q hq
      have hqne : ¬(q.1 = ax ∧ q.2 = ay) := by
        intro hc
        rcases trail_mem g _ _ ht q hq with rfl | hqrev
        · exact hne ⟨hc.1, hc.2⟩
        · have : (g3.tiles q.1 q.2).revealed = true := hrevmono q.1 q.2 hqrev
          rw [hc.1, hc.2] at this
          rw [this] at hunrev3
          exact Bool.noConfusion hunrev3
      constructor
      · rw [hg3, updTile_tiles_other _ _ _ _ _ _ hqne, hg2, updAngle_dx, hg1,
          setRevealed_dx]
      · rw [hg3, updTile_tiles_other _ _ _ _ _ _ hqne, hg2, updAngle_dy, hg1,
          setRevealed_dy]
    have htr3 : Trail g3 (x, y) l :=
      trail_transfer g g3 rfl rfl hrevmono _ _ ht hdxy3
    have hchild : (ax, ay) ∈ grid g3 := by
      rw [mem_grid]
      exact hinr
    have hnz3 : ¬((g3.tiles (ax, ay).1 (ax, ay).2).dx = 0 ∧
        (g3.tiles (ax, ay).1 (ax, ay).2).dy = 0) := by
      dsimp only
      rw [hdx3self, hdy3self]
      intro hc
      refine dir_nonzero a ha8 ⟨?_, ?_⟩ <;> [have := hc.1; have := hc.2] <;> omega
    have htrail' : Trail g3 (ax, ay) ((ax, ay) :: l) := by
      refine Trail.cons (ax, ay) l hchild hnz3 ?_ ?_
      · rw [hnp]
        exact hg3xy
      · rw [hnp]
        exact htr3
    refine ⟨(ax, ay) :: l, htrail', ?_⟩
    have hUnew : unrevCount (setRevealed g3 ax ay) + 1 = unrevCount g3 :=
      unrevCount_setRevealed_new g3 ax ay hchild hunrev3
    have hU31 : unrevCount g3 = unrevCount g1 :=
      unrevCount_congr g1 g3 rfl rfl fun r _ => by rw [hrev3, hrev2]
    rw [List.length_cons]
    omega

/-- The loop terminates within fuel bounded by the measure. -/
theorem revealLoop_some (n : Nat) : ∀ (s : LoopState) (l : List (Int × Int)),
    Trail s.g (s.x, s.y) l →
    2 * unrevCount (setRevealed s.g s.x s.y) + l.length ≤ n →
    (revealLoop n s).isSome = true := by
  induction n with
  | zero =>
    intro s l ht hm
    have := trail_length_pos _ _ _ ht
    omega
  | succ n ih =>
    intro s l ht hm
    unfold revealLoop
    rcases hstep : revealStep s with s' | gfin
    · obtain ⟨l', ht', hmeas⟩ := revealStep_cont s s' l ht hstep
      exact ih s' l' ht' (by omega)
    · rfl

/-- C6: on every board up to the maximum 26 by 30 size and every
in-range starting coordinate, the breadcrumb flood fill terminates:
`reveal` completes within its fuel of `2*width*height + 1` loop
iterations, because every tile entered as a new flood-fill target is
revealed at once and never entered as a target again, and every
backtrack shortens the breadcrumb trail. -/
theorem c6_reveal_terminates (g : Game) (x y : Int) (hw : g.width ≤ 26)
    (hh : g.height ≤ 30) (hr : inRangeP g x y) : (reveal g x y).isSome = true := by
  unfold reveal
  split_ifs with h1 h2
  · rfl
  · rfl
  · set g0 := updTile g x y (fun t => { t with dx := 0, dy := 0 }) with hg0
    have hdx0 : (g0.tiles x y).dx = 0 := by rw [hg0, updTile_tiles_self]
    have hdy0 : (g0.tiles x y).dy = 0 := by rw [hg0, updTile_tiles_self]
    have hmem : (x, y) ∈ grid g0 := by
      rw [mem_grid]
      exact hr
    have ht : Trail g0 (x, y) [(x, y)] := Trail.root (x, y) hmem hdx0 hdy0
    have hU := unrevCount_le (setRevealed g0 x y)
    have hUw : (setRevealed g0 x y).width = g.width := rfl
    have hUh : (setRevealed g0 x y).height = g.height := rfl
    rw [hUw, hUh] at hU
    have hfuel : 2 * unrevCount (setRevealed g0 x y) + 1 ≤ 2 * g.width * g.height + 1 := by
      have h3 : 2 * g.width * g.height = 2 * (g.width * g.height) := by ring
      omega
    have hsome := revealLoop_some (2 * g.width * g.height + 1) ⟨g0, x, y⟩ [(x, y)] ht
      (by simpa using hfuel)
    rcases hloop : revealLoop (2 * g.width * g.height + 1) ⟨g0, x, y⟩ with _ | g'
    · rw [hloop] at hsome
      simp at hsome
    · simp only [hloop, Option.isSome_some]

/-- Witness for C6: revealing A1 on an empty 3 by 1 board. -/
theorem c6_reveal_terminates_witness :
    ((mkGame 3 1 0).width ≤ 26 ∧ (mkGame 3 1 0).height ≤ 30 ∧
      inRangeP (mkGame 3 1 0) 0 0) ∧
    (reveal (mkGame 3 1 0) 0 0).isSome = true :=
  ⟨⟨by decide, by decide, by decide⟩,
   c6_reveal_terminates (mkGame 3 1 0) 0 0 (by decide) (by decide) (by decide)⟩

/-! ### C8 amended: characterizing the Invalid outcome -/

theorem findIdx?_some_spec {α : Type} (p : α → Bool) (d : α) :
    ∀ (l : List α) (base i : Nat), List.findIdx? p l base = some i →
      base ≤ i ∧ i - base < l.length ∧ p (l.getD (i - base) d) = true := by
  intro l
  induction l with
  | nil =>
    intro base i h
    simp [List.findIdx?] at h
  | cons a t ih =>
    intro base i h
    rw [List.findIdx?_cons] at h
    split_ifs at h with hpa
    · obtain rfl : base = i := by injection h
      refine ⟨le_rfl, by simp, ?_⟩
      rw [Nat.sub_self]
      simpa using hpa
    · obtain ⟨hb, hlen, hp⟩ := ih (base + 1) i h
      refine ⟨by omega, by simp only [List.length_cons]; omega, ?_⟩
      have he : i - base = (i - (base + 1)) + 1 := by omega
      rw [he]
      simpa using hp

/-- The first index of each alphabet letter is its position. -/
theorem alphabet_findIdx_self : ∀ i, i < 26 →
    alphabet.findIdx? (fun a => a = alphabet.getD i ' ') = some i := by
  decide

/-- `parse_location` succeeds exactly on the positions of the amended
grammar. -/
theorem parse_location_isSome (g : Game) (hw : g.width ≤ 26) (s : List Char) :
    (parse_location g s).isSome = acceptedPos g s := by
  cases s with
  | nil => rfl
  | cons c num =>
    simp only [parse_location, acceptedPos]
    have hiff : (0 ≤ atoiC num - 1 ∧ atoiC num - 1 < (g.height : Int)) ↔
        (1 ≤ atoiC num ∧ atoiC num ≤ (g.height : Int)) := by omega
    rcases hf : alphabet.findIdx? (fun a => a = toupperC c) with _ | i
    · have hnone : ∀ j, j < g.width → ¬(toupperC c = alphabet.getD j ' ') := by
        intro j hj heq
        have h26 : j < 26 := lt_of_lt_of_le hj hw
        have hidx := alphabet_findIdx_self j h26
        rw [← heq] at hidx
        rw [hf] at hidx
        exact Option.noConfusion hidx
      have hany : ((List.range g.width).any fun i => toupperC c = alphabet.getD i ' ') =
          false := by
        rw [← Bool.not_eq_true, List.any_eq_true]
        rintro ⟨j, hj, hdec⟩
        exact hnone j (List.mem_range.mp hj) (of_decide_eq_true hdec)
      rw [hany]
      rfl
    · obtain ⟨hb, hlen, hp⟩ := findIdx?_some_spec (fun a => a = toupperC c) ' ' alphabet 0 i hf
      rw [Nat.sub_zero] at hlen hp
      have hgd : alphabet.getD i ' ' = toupperC c := of_decide_eq_true hp
      have h26 : i < 26 := hlen
      dsimp only
      by_cases hiw : (i : Int) < (g.width : Int)
      · have hiwn : i < g.width := by exact_mod_cast hiw
        have hany : ((List.range g.width).any fun j => toupperC c = alphabet.getD j ' ') =
            true := by
          rw [List.any_eq_true]
          exact ⟨i, List.mem_range.mpr hiwn, decide_eq_true hgd.symm⟩
        rw [if_pos hiw, hany]
        by_cases hy : 1 ≤ atoiC num ∧ atoiC num ≤ (g.height : Int)
        · rw [if_pos (hiff.mpr hy), decide_eq_true hy]
          rfl
        · rw [if_neg (fun hc => hy (hiff.mp hc)), decide_eq_false hy]
          rfl
      · have hany : ((List.range g.width).any fun j => toupperC c = alphabet.getD j ' ') =
            false := by
          rw [← Bool.not_eq_true, List.any_eq_true]
          rintro ⟨j, hj, hdec⟩
          have hj' : j < g.width := List.mem_range.mp hj
          have heq : toupperC c = alphabet.getD j ' ' := of_decide_eq_true hdec
          have h26' : j < 26 := lt_of_lt_of_le hj' hw
          have hidx := alphabet_findIdx_self j h26'
          rw [← heq] at hidx
          rw [hf] at hidx
          have : i = j := by injection hidx
          subst this
          exact hiw (by exact_mod_cast hj')
        rw [if_neg hiw, hany]
        rfl

theorem flagAction_ne_invalid (swaps : Nat → Nat × Nat) (g : Game) (x y : Int) :
    (flagAction swaps g x y).1 ≠ CmdRes.invalid := by
  by_cases hr : (g.tiles x y).revealed = true
  · simp [flagAction, hr]
  · rw [Bool.not_eq_true] at hr
    simp only [flagAction, hr, Bool.false_eq_true, if_false]
    split_ifs <;> simp

theorem revealAction_ne_invalid (swaps : Nat → Nat × Nat) (nthRaw : Nat) (g : Game)
    (x y : Int) : (revealAction swaps nthRaw g x y).1 ≠ CmdRes.invalid := by
  simp only [revealAction]
  by_cases hf : ((if g.initialized then g
      else make_space (init_board swaps g) x y nthRaw).tiles x y).flagged = true
  · simp [hf]
  · rw [Bool.not_eq_true] at hf
    simp only [hf, Bool.false_eq_true, if_false]
    rcases hrev : reveal (if g.initialized then g
        else make_space (init_board swaps g) x y nthRaw) x y with _ | ⟨b, g2⟩
    · simp [hrev]
    · cases b <;> simp [hrev]

/-- C8 amended: an input is reported Invalid exactly when it is an
`f`-prefixed, `r`-prefixed or bare position command whose position
fails the actual parse — the column letter is matched
case-insensitively and bounded by the width, the row is read as the
`atoi` decimal prefix (leading whitespace and sign allowed, trailing
characters ignored) and bounded by the height, and a position is
required after `f` and `r`; the empty, `h`, `?` and `q` commands are
never Invalid; and an Invalid command leaves the entire board state
unchanged. -/
theorem c8_invalid_characterization :
    (∀ (swaps : Nat → Nat × Nat) (nthRaw : Nat) (confirm : Bool) (g : Game)
      (input : List Char),
      (run_command swaps nthRaw confirm g input).1 = CmdRes.invalid →
      (run_command swaps nthRaw confirm g input).2 = g) ∧
    (∀ (swaps : Nat → Nat × Nat) (nthRaw : Nat) (confirm : Bool) (g : Game)
      (input : List Char), g.width ≤ 26 →
      ((run_command swaps nthRaw confirm g input).1 = CmdRes.invalid ↔
        acceptedGrammar g input = false)) := by
  constructor
  · intro swaps nthRaw confirm g input h
    cases input with
    | nil => rfl
    | cons c rest =>
      simp only [run_command] at h ⊢
      by_cases h1 : c = 'f'
      · rw [if_pos h1] at h ⊢
        rcases hp : parse_location g rest with _ | ⟨x, y⟩
        · rfl
        · rw [hp] at h
          exact absurd h (flagAction_ne_invalid swaps g x y)
      · rw [if_neg h1] at h ⊢
        by_cases h2 : c = 'h' ∨ c = '?'
        · rw [if_pos h2] at h
          exact absurd h (by simp)
        · rw [if_neg h2] at h ⊢
          by_cases h3 : c = 'q'
          · rw [if_pos h3] at h
            split_ifs at h <;> exact absurd h (by simp)
          · rw [if_neg h3] at h ⊢
            rcases hp : (if c = 'r' then parse_location g rest
                else parse_location g (c :: rest)) with _ | ⟨x, y⟩
            · rfl
            · rw [hp] at h
              exact absurd h (revealAction_ne_invalid swaps nthRaw g x y)
  · intro swaps nthRaw confirm g input hw
    cases input with
    | nil =>
      simp only [run_command, acceptedGrammar]
      exact ⟨fun h => absurd h (by simp), fun h => absurd h (by simp)⟩
    | cons c rest =>
      simp only [run_command, acceptedGrammar]
      by_cases h1 : c = 'f'
      · rw [if_pos h1, if_pos h1]
        have hps := parse_location_isSome g hw rest
        rcases hp : parse_location g rest with _ | ⟨x, y⟩
        · rw [hp] at hps
          exact ⟨fun _ => hps.symm, fun _ => rfl⟩
        · rw [hp] at hps
          constructor
          · intro h
            exact absurd h (flagAction_ne_invalid swaps g x y)
          · intro h
            rw [← hps] at h
            simp at h
      · rw [if_neg h1, if_neg h1]
        by_cases h2 : c = 'h' ∨ c = '?'
        · rw [if_pos h2, if_pos h2]
          exact ⟨fun h => absurd h (by simp), fun h => absurd h (by simp)⟩
        · rw [if_neg h2, if_neg h2]
          by_cases h3 : c = 'q'
          · rw [if_pos h3, if_pos h3]
            constructor
            · intro h
              split_ifs at h <;> exact absurd h (by simp)
            · intro h
              exact absurd h (by simp)
          · rw [if_neg h3, if_neg h3]
            by_cases h4 : c = 'r'
            · rw [if_pos h4, if_pos h4]
              have hps := parse_location_isSome g hw rest
              rcases hp : parse_location g rest with _ | ⟨x, y⟩
              · rw [hp] at hps
                exact ⟨fun _ => hps.symm, fun _ => rfl⟩
              · rw [hp] at hps
                constructor
                · intro h
                  exact absurd h (revealAction_ne_invalid swaps nthRaw g x y)
                · intro h
                  rw [← hps] at h
                  simp at h
            · rw [if_neg h4, if_neg h4]
              have hps := parse_location_isSome g hw (c :: rest)
              rcases hp : parse_location g (c :: rest) with _ | ⟨x, y⟩
              · rw [hp] at hps
                exact ⟨fun _ => hps.symm, fun _ => rfl⟩
              · rw [hp] at hps
                constructor
                · intro h
                  exact absurd h (revealAction_ne_invalid swaps nthRaw g x y)
                · intro h
                  rw [← hps] at h
                  simp at h

/-- Witness for the amended C8 on the rejected input `z`. -/
theorem c8_invalid_characterization_witness :
    (mkGame 3 1 0).width ≤ 26 ∧
    ((run_command swaps0 0 false (mkGame 3 1 0) ['z']).1 = CmdRes.invalid ↔
      acceptedGrammar (mkGame 3 1 0) ['z'] = false) :=
  ⟨by decide,
   c8_invalid_characterization.2 swaps0 0 false (mkGame 3 1 0) ['z'] (by decide)⟩

end Mines
